import Mathlib

/-!
Shallow embedding of the indicator engines of the openalgo-chart repository:
Renko brick construction (`src/utils/renkoUtils.js`), the session-anchored
VWAP (`src/utils/indicators/vwap.js`), the Hilenga-Milenga RSI oscillator and
the volume moving average.  JavaScript numbers are modelled as rationals,
Unix timestamps (seconds) as naturals, and nullable / non-array arguments as
`Option`.  `Date` arithmetic is modelled through an explicit timezone offset
`tz` in seconds: two timestamps print the same `toDateString()` exactly when
they fall on the same local calendar day, i.e. when `(t + tz) / 86400` agree,
and `getHours() * 60 + getMinutes()` is `((t + tz) % 86400) / 60`.
-/

/-- A point of an indicator line: the JS object `{ time, value }`. -/
structure TV where
  time : Nat
  value : ℚ
  deriving DecidableEq

/-- An OHLC bar `{ time, open, high, low, close }` (Renko / oscillator input
and Renko brick output). -/
structure Bar where
  time : Nat
  «open» : ℚ
  high : ℚ
  low : ℚ
  close : ℚ
  deriving DecidableEq

/-- An OHLCV candle `{ time, open, high, low, close, volume }` (VWAP and
volume-indicator input). -/
structure Candle where
  time : Nat
  «open» : ℚ
  high : ℚ
  low : ℚ
  close : ℚ
  volume : ℚ
  deriving DecidableEq

/-- Renko brick direction, the JS strings `'up'` / `'down'`. -/
inductive Dir where
  | up
  | down
  deriving DecidableEq

/-- Result record of `calculateHilengaMilenga`: `{ rsiLine, emaLine, wmaLine }`. -/
structure HMResult where
  rsiLine : List TV
  emaLine : List TV
  wmaLine : List TV
  deriving DecidableEq

/- String constants for exchange names and source keys, so that string
literals never directly follow an identifier in later statements. -/

/-- Exchange name `"NSE"`. -/
def exNSE : String := "NSE"

/-- Exchange name `"BSE"`. -/
def exBSE : String := "BSE"

/-- Exchange name `"NFO"`. -/
def exNFO : String := "NFO"

/-- Exchange name `"BFO"`. -/
def exBFO : String := "BFO"

/-- Exchange name `"MCX"`. -/
def exMCX : String := "MCX"

/-- Exchange name `"CDS"`. -/
def exCDS : String := "CDS"

/-- Exchange name `"BCD"`. -/
def exBCD : String := "BCD"

/-- Exchange name `"NSE_INDEX"`. -/
def exNSEIdx : String := "NSE_INDEX"

/-- Exchange name `"BSE_INDEX"`. -/
def exBSEIdx : String := "BSE_INDEX"

/-- VWAP source key `"close"`. -/
def srcClose : String := "close"

/-- VWAP source key `"hlc3"`. -/
def srcHlc3 : String := "hlc3"

/-- JS `String(source).toLowerCase()`, modelled characterwise (the source keys
are ASCII). -/
def jsToLower (s : String) : String := ⟨s.data.map Char.toLower⟩

/-- The `EXCHANGE_OPEN_MINUTES` lookup table of `vwap.js`: market-open time in
minutes from local midnight, per exchange. -/
def EXCHANGE_OPEN_MINUTES (exchange : String) : Option Nat :=
  if exchange = exNSE then some (9 * 60 + 15)
  else if exchange = exBSE then some (9 * 60 + 15)
  else if exchange = exNFO then some (9 * 60 + 15)
  else if exchange = exBFO then some (9 * 60 + 15)
  else if exchange = exMCX then some (9 * 60)
  else if exchange = exCDS then some (9 * 60)
  else if exchange = exBCD then some (9 * 60)
  else if exchange = exNSEIdx then some (9 * 60 + 15)
  else if exchange = exBSEIdx then some (9 * 60 + 15)
  else none

/-- `getMarketOpenMinutes` of `vwap.js`: `EXCHANGE_OPEN_MINUTES[exchange] ||
EXCHANGE_OPEN_MINUTES['NSE']`.  All table entries are nonzero, so the JS `||`
fallback fires exactly on a missing key, which `Option.getD` captures. -/
def getMarketOpenMinutes (exchange : String) : Nat :=
  (EXCHANGE_OPEN_MINUTES exchange).getD (9 * 60 + 15)

/-- `candleDate.getHours() * 60 + candleDate.getMinutes()` for a timestamp `t`
(seconds) in a timezone `tz` seconds east of UTC. -/
def localMinutesFromMidnight (tz t : Nat) : Nat :=
  ((t + tz) % 86400) / 60

/-- The local calendar-day number of timestamp `t`; two timestamps have equal
`toDateString()` exactly when their local day numbers agree. -/
def localDay (tz t : Nat) : Nat :=
  (t + tz) / 86400

/-- The session key computed inside the `resetDaily` block of `calculateVWAP`:
with `resetAtMarketOpen`, a candle earlier than the market-open minute is
keyed to the previous local calendar day (the JS
`prevDate.setDate(prevDate.getDate() - 1); sessionKey = prevDate.toDateString()`),
otherwise the key is the candle's own local calendar day. -/
def sessionKeyOf (tz marketOpenMinutes : Nat) (resetAtMarketOpen : Bool) (t : Nat) : ℤ :=
  if resetAtMarketOpen then
    if localMinutesFromMidnight tz t < marketOpenMinutes then (localDay tz t : ℤ) - 1
    else (localDay tz t : ℤ)
  else (localDay tz t : ℤ)

/-- The `switch (sourceKey)` of `calculateVWAP`: price selected by source key,
with `hlc3` as the default case. -/
def sourcePrice (sourceKey : String) (candle : Candle) : ℚ :=
  if sourceKey = srcClose then candle.close
  else if sourceKey = "open" then candle.«open»
  else if sourceKey = "high" then candle.high
  else if sourceKey = "low" then candle.low
  else (candle.high + candle.low + candle.close) / 3

/-- Mutable state of the `calculateVWAP` main loop: the accumulators
`cumTPV`, `cumVolume`, the `lastSessionKey` variable, and the `vwapData`
output array built so far. -/
structure VwapState where
  cumTPV : ℚ
  cumVolume : ℚ
  lastSessionKey : Option ℤ
  out : List TV
  deriving DecidableEq

/-- One iteration of the `calculateVWAP` loop body over a candle.
Mirrors `vwap.js` lines 67-137: the zero-volume fallback (which `continue`s
before the session check), the `resetDaily` session-reset block, the source
price, the accumulator updates and the emitted `{time, value}` point. -/
def vwapStep (tz : Nat) (resetDaily resetAtMarketOpen ignoreVolume : Bool)
    (sourceKey : String) (marketOpenMinutes : Nat)
    (s : VwapState) (candle : Candle) : VwapState :=
  let volume : ℚ := if ignoreVolume then 1 else candle.volume
  if volume = 0 ∧ ¬ignoreVolume then
    let price := sourcePrice sourceKey candle
    let fallbackValue :=
      match s.out.getLast? with
      | some p => p.value
      | none => price
    ⟨s.cumTPV, s.cumVolume, s.lastSessionKey, s.out ++ [⟨candle.time, fallbackValue⟩]⟩
  else
    let afterReset : ℚ × ℚ × Option ℤ :=
      if resetDaily then
        let sessionKey := sessionKeyOf tz marketOpenMinutes resetAtMarketOpen candle.time
        match s.lastSessionKey with
        | some k => if sessionKey ≠ k then (0, 0, some sessionKey)
                    else (s.cumTPV, s.cumVolume, some sessionKey)
        | none => (s.cumTPV, s.cumVolume, some sessionKey)
      else (s.cumTPV, s.cumVolume, s.lastSessionKey)
    let price := sourcePrice sourceKey candle
    let cumTPV := afterReset.1 + price * volume
    let cumVolume := afterReset.2.1 + volume
    let vwap := if 0 < cumVolume then cumTPV / cumVolume else price
    ⟨cumTPV, cumVolume, afterReset.2.2, s.out ++ [⟨candle.time, vwap⟩]⟩

/-- `calculateVWAP(data, options)` of `vwap.js`.  `none` models a null or
non-array `data` argument (the `!Array.isArray(data)` guard); the option
object is passed as its destructured fields in source order, plus the local
timezone offset `tz` used by `Date`. -/
def calculateVWAP (data : Option (List Candle)) (resetDaily : Bool)
    (exchange : String) (resetAtMarketOpen : Bool) (source : String)
    (ignoreVolume : Bool) (tz : Nat) : List TV :=
  match data with
  | none => []
  | some l =>
    if l.length = 0 then []
    else
      let sourceKey := jsToLower source
      let marketOpenMinutes := getMarketOpenMinutes exchange
      (l.foldl (vwapStep tz resetDaily resetAtMarketOpen ignoreVolume sourceKey marketOpenMinutes)
        ⟨0, 0, none, []⟩).out

/-- The `createBrick` helper of `calculateRenko`: a brick with the synthetic
timestamp `baseTime + brickIndex * timeIncrement` (`timeIncrement = 1`),
`high = isUp ? close : open`, `low = isUp ? open : close`. -/
def mkBrick (baseTime brickIndex : Nat) (openPrice closePrice : ℚ) (direction : Dir) : Bar :=
  ⟨baseTime + brickIndex * 1,
   openPrice,
   if direction = Dir.up then closePrice else openPrice,
   if direction = Dir.up then openPrice else closePrice,
   closePrice⟩

/-- The inner `for (let j = 0; j < bricksToAdd; j++)` loops of
`calculateRenko`: emit `n` bricks of one box each from `brickPrice`, stepping
`brickPrice` and `brickIndex`.  Returns the emitted bricks together with the
updated `brickPrice` and `brickIndex`. -/
def emitBricks (baseTime : Nat) (boxSize : ℚ) (direction : Dir) :
    Nat → ℚ → Nat → List Bar × ℚ × Nat
  | 0, brickPrice, brickIndex => ([], brickPrice, brickIndex)
  | n + 1, brickPrice, brickIndex =>
      let brickClose := if direction = Dir.up then brickPrice + boxSize else brickPrice - boxSize
      let e := emitBricks baseTime boxSize direction n brickClose (brickIndex + 1)
      (mkBrick baseTime brickIndex brickPrice brickClose direction :: e.1, e.2.1, e.2.2)

/-- Mutable state of the `calculateRenko` main loop. -/
structure RenkoState where
  bricks : List Bar
  brickPrice : ℚ
  lastDirection : Option Dir
  brickIndex : Nat
  deriving DecidableEq

/-- One iteration of the `calculateRenko` loop body over a candle
(`renkoUtils.js` lines 109-185): first brick(s) when no direction is set yet,
trend continuation when `|priceDiff| >= boxSize` in the trend direction, and
reversal when the move against the trend reaches `2 * boxSize`.  The brick
counts are `Math.floor(priceDiff / boxSize)` for up moves and
`Math.floor(Math.abs(priceDiff) / boxSize)` for down moves, as in the source. -/
def renkoStep (baseTime : Nat) (boxSize : ℚ) (s : RenkoState) (candle : Bar) : RenkoState :=
  let priceDiff := candle.close - s.brickPrice
  match s.lastDirection with
  | none =>
      if boxSize ≤ priceDiff then
        let e := emitBricks baseTime boxSize Dir.up (⌊priceDiff / boxSize⌋).toNat s.brickPrice s.brickIndex
        ⟨s.bricks ++ e.1, e.2.1, some Dir.up, e.2.2⟩
      else if priceDiff ≤ -boxSize then
        let e := emitBricks baseTime boxSize Dir.down (⌊|priceDiff| / boxSize⌋).toNat s.brickPrice s.brickIndex
        ⟨s.bricks ++ e.1, e.2.1, some Dir.down, e.2.2⟩
      else s
  | some Dir.up =>
      if boxSize ≤ priceDiff then
        let e := emitBricks baseTime boxSize Dir.up (⌊priceDiff / boxSize⌋).toNat s.brickPrice s.brickIndex
        ⟨s.bricks ++ e.1, e.2.1, some Dir.up, e.2.2⟩
      else if priceDiff ≤ -(2 * boxSize) then
        let e := emitBricks baseTime boxSize Dir.down (⌊|priceDiff| / boxSize⌋).toNat s.brickPrice s.brickIndex
        ⟨s.bricks ++ e.1, e.2.1, some Dir.down, e.2.2⟩
      else s
  | some Dir.down =>
      if priceDiff ≤ -boxSize then
        let e := emitBricks baseTime boxSize Dir.down (⌊|priceDiff| / boxSize⌋).toNat s.brickPrice s.brickIndex
        ⟨s.bricks ++ e.1, e.2.1, some Dir.down, e.2.2⟩
      else if 2 * boxSize ≤ priceDiff then
        let e := emitBricks baseTime boxSize Dir.up (⌊priceDiff / boxSize⌋).toNat s.brickPrice s.brickIndex
        ⟨s.bricks ++ e.1, e.2.1, some Dir.up, e.2.2⟩
      else s

/-- `calculateRenko(data, brickSize)` of `renkoUtils.js`, for calls that pass
an explicit (truthy) `brickSize`, here `boxSize`.  The `brickSize = null`
auto-sizing branch (`calculateDefaultBrickSize`, floating-point `log10`) is
not exercised by any claim and is not modelled.  `none` models a null `data`
argument; `boxSize <= 0` falls back to the original data, and the final
fallback emits a single brick from first close to last close when the loop
produced none. -/
def calculateRenko (data : Option (List Bar)) (boxSize : ℚ) : List Bar :=
  match data with
  | none => []
  | some l =>
    if l.length = 0 then []
    else if boxSize ≤ 0 then l
    else
      match l with
      | [] => []
      | firstCandle :: _ =>
        let brickPrice := (⌊firstCandle.close / boxSize⌋ : ℚ) * boxSize
        let baseTime := firstCandle.time
        let final := l.foldl (renkoStep baseTime boxSize) ⟨[], brickPrice, none, 0⟩
        if final.bricks.length = 0 then
          match l.getLast? with
          | some lastCandle =>
              let direction := if firstCandle.close ≤ lastCandle.close then Dir.up else Dir.down
              [mkBrick baseTime final.brickIndex firstCandle.close lastCandle.close direction]
          | none => final.bricks
        else final.bricks

/-- The `for (let i = 1; i < data.length; i++)` change loop of
`calculateRSIValues`: consecutive close-to-close differences. -/
def priceChanges : List Bar → List ℚ
  | a :: b :: rest => (b.close - a.close) :: priceChanges (b :: rest)
  | _ => []

/-- Wilder-smoothing tail loop of `calculateRSIValues`: each element of the
input list is `(gain, loss, time)` where `time` is `data[i + 1].time`. -/
def rsiRec (period : Nat) : ℚ → ℚ → List (ℚ × ℚ × Nat) → List TV
  | _, _, [] => []
  | avgGain, avgLoss, trip :: rest =>
      let avgGain2 := (avgGain * ((period : ℚ) - 1) + trip.1) / (period : ℚ)
      let avgLoss2 := (avgLoss * ((period : ℚ) - 1) + trip.2.1) / (period : ℚ)
      let rs := if avgLoss2 = 0 then 100 else avgGain2 / avgLoss2
      ⟨trip.2.2, 100 - 100 / (1 + rs)⟩ :: rsiRec period avgGain2 avgLoss2 rest

/-- `calculateRSIValues(data, period)` of the Hilenga-Milenga module: gains
and losses from consecutive close changes, a seed SMA over the first `period`
of them, the first RSI point at `data[period].time`, then Wilder smoothing
with the `avgLoss === 0 → RS = 100` guard. -/
def calculateRSIValues (data : List Bar) (period : Nat) : List TV :=
  if data.length < period + 1 then []
  else
    let diffs := priceChanges data
    let gains := diffs.map (fun change => if 0 < change then change else 0)
    let losses := diffs.map (fun change => if change < 0 then |change| else 0)
    let avgGain := (gains.take period).sum / (period : ℚ)
    let avgLoss := (losses.take period).sum / (period : ℚ)
    let firstRS := if avgLoss = 0 then 100 else avgGain / avgLoss
    let firstRSI := 100 - 100 / (1 + firstRS)
    let firstTime := ((data[period]?).map (fun d => d.time)).getD 0
    let laterTimes := (data.drop (period + 1)).map (fun d => d.time)
    ⟨firstTime, firstRSI⟩ ::
      rsiRec period avgGain avgLoss ((gains.drop period).zip ((losses.drop period).zip laterTimes))

/-- The EMA recurrence `ema = (value - prevEma) * k + prevEma` of
`calculateEMAOfValues`. -/
def emaRec (k : ℚ) : ℚ → List ℚ → List ℚ
  | _, [] => []
  | prevEma, v :: rest =>
      let ema := (v - prevEma) * k + prevEma
      ema :: emaRec k ema rest

/-- `calculateEMAOfValues(values, period)`: empty when fewer than `period`
values, otherwise an SMA seed followed by the EMA recurrence with
`k = 2 / (period + 1)`. -/
def calculateEMAOfValues (values : List ℚ) (period : Nat) : List ℚ :=
  if values.length < period then []
  else
    let k : ℚ := 2 / ((period : ℚ) + 1)
    let prevEma := (values.take period).sum / (period : ℚ)
    prevEma :: emaRec k prevEma (values.drop period)

/-- Element of a rational list at an index, `0` when out of range. -/
def valAt (values : List ℚ) (i : Nat) : ℚ := (values[i]?).getD 0

/-- `calculateWMAOfValues(values, period)`: for each window end
`i = period - 1 + m` the weighted sum `Σ values[i - period + 1 + j] * (j + 1)`
over `j < period`, divided by `period * (period + 1) / 2`. -/
def calculateWMAOfValues (values : List ℚ) (period : Nat) : List ℚ :=
  if values.length < period then []
  else
    let weightSum : ℚ := (period : ℚ) * ((period : ℚ) + 1) / 2
    (List.range (values.length - (period - 1))).map (fun m =>
      (((List.range period).map (fun j => valAt values (m + j) * ((j : ℚ) + 1))).sum) / weightSum)

/-- The EMA/WMA time-alignment loops of `calculateHilengaMilenga`: pair the
`i`-th smoothed value with `rsiValues[startIndex + i].time`, skipping once the
index runs past the RSI array (the JS bound check). -/
def alignLineAux (rsiValues : List TV) : Nat → List ℚ → List TV
  | _, [] => []
  | idx, v :: vs =>
      match rsiValues[idx]? with
      | some r => ⟨r.time, v⟩ :: alignLineAux rsiValues (idx + 1) vs
      | none => alignLineAux rsiValues (idx + 1) vs

/-- `calculateHilengaMilenga(data, rsiLength, emaLength, wmaLength)`: the
input-length guard, RSI, EMA-of-RSI and WMA-of-RSI, and the three aligned
output lines.  `none` models a null or non-array `data` argument. -/
def calculateHilengaMilenga (data : Option (List Bar))
    (rsiLength emaLength wmaLength : Nat) : HMResult :=
  match data with
  | none => ⟨[], [], []⟩
  | some l =>
    if l.length < Nat.max rsiLength wmaLength + 1 then ⟨[], [], []⟩
    else
      let rsiValues := calculateRSIValues l rsiLength
      if rsiValues.length = 0 then ⟨[], [], []⟩
      else
        let emaValues := calculateEMAOfValues (rsiValues.map (fun r => r.value)) emaLength
        let wmaValues := calculateWMAOfValues (rsiValues.map (fun r => r.value)) wmaLength
        let rsiLine := rsiValues.map (fun r => (⟨r.time, r.value⟩ : TV))
        ⟨rsiLine,
         alignLineAux rsiValues (emaLength - 1) emaValues,
         alignLineAux rsiValues (wmaLength - 1) wmaValues⟩

/-- `(data[i] ? data[i].volume : undefined) || 0` — volume of the candle at an
index, `0` out of range. -/
def volAt (l : List Candle) (i : Nat) : ℚ := ((l[i]?).map (fun c => c.volume)).getD 0

/-- Time of the candle at an index, `0` out of range. -/
def timeAtD (l : List Candle) (i : Nat) : Nat := ((l[i]?).map (fun c => c.time)).getD 0

/-- `calculateVolumeMA(data, period)` of the volume module: skip the first
`period - 1` indices, then at each index `i` emit the mean of
`data[i - j].volume` over `j < period` at `data[i].time`.  `none` models a
null or non-array `data` argument. -/
def calculateVolumeMA (data : Option (List Candle)) (period : Nat) : List TV :=
  match data with
  | none => []
  | some l =>
    if l.length = 0 then []
    else
      (List.range l.length).filterMap (fun i =>
        if i < period - 1 then none
        else some ⟨timeAtD l i,
          (((List.range period).map (fun j => volAt l (i - j))).sum) / (period : ℚ)⟩)

/-- Thirty daily candles whose closes rise by 1 each day (the end-to-end RSI
scenario of the spec). -/
def risingCandles30 : List Bar :=
  (List.range 30).map (fun i => ⟨i * 86400, 0, 0, 0, (i : ℚ) + 1⟩)

/-- Twenty candles with volumes 1..20 (the volume-MA window scenario). -/
def volCandles20 : List Candle :=
  [⟨0, 0, 0, 0, 0, 1⟩, ⟨1, 0, 0, 0, 0, 2⟩, ⟨2, 0, 0, 0, 0, 3⟩, ⟨3, 0, 0, 0, 0, 4⟩, ⟨4, 0, 0, 0, 0, 5⟩, ⟨5, 0, 0, 0, 0, 6⟩, ⟨6, 0, 0, 0, 0, 7⟩, ⟨7, 0, 0, 0, 0, 8⟩, ⟨8, 0, 0, 0, 0, 9⟩, ⟨9, 0, 0, 0, 0, 10⟩, ⟨10, 0, 0, 0, 0, 11⟩, ⟨11, 0, 0, 0, 0, 12⟩, ⟨12, 0, 0, 0, 0, 13⟩, ⟨13, 0, 0, 0, 0, 14⟩, ⟨14, 0, 0, 0, 0, 15⟩, ⟨15, 0, 0, 0, 0, 16⟩, ⟨16, 0, 0, 0, 0, 17⟩, ⟨17, 0, 0, 0, 0, 18⟩, ⟨18, 0, 0, 0, 0, 19⟩, ⟨19, 0, 0, 0, 0, 20⟩]

/-- Three candles spanning a midnight boundary whose middle (boundary) bar has
zero volume: used to exhibit the deferred session reset. -/
def zeroVolBoundaryCandles : List Candle :=
  [⟨1000, 30, 30, 30, 30, 1⟩, ⟨87000, 50, 50, 50, 50, 0⟩, ⟨87600, 40, 40, 40, 40, 2⟩]

/-! ## Claim theorems -/

/-- C8 (supporting theorem, null case): each engine, called with a null data
argument (modelled as `none`), returns its empty-result shape — an empty
array for `calculateVWAP`, `calculateRenko` and `calculateVolumeMA`, a record
of three empty arrays for `calculateHilengaMilenga`. -/
theorem engines_null_input_empty (resetDaily resetAtMarketOpen ignoreVolume : Bool)
    (exchange source : String) (tz : Nat) (boxSize : ℚ)
    (rsiLength emaLength wmaLength period : Nat) :
    calculateVWAP none resetDaily exchange resetAtMarketOpen source ignoreVolume tz = []
    ∧ calculateRenko none boxSize = []
    ∧ calculateHilengaMilenga none rsiLength emaLength wmaLength = ⟨[], [], []⟩
    ∧ calculateVolumeMA none period = [] :=
  ⟨rfl, rfl, rfl, rfl⟩

/-- C10: with `ignoreVolume` false, a zero-volume candle leaves `cumTPV`,
`cumVolume` and `lastSessionKey` untouched and only appends the previously
emitted VWAP value (or the candle's own source price when there is no output
yet); consequently, on a three-bar input whose midnight-boundary bar has zero
volume, the session reset is deferred to the next positive-volume bar, whose
VWAP equals its own typical price. -/
theorem vwap_zero_volume_step
    (tz : Nat) (resetDaily resetAtMarketOpen : Bool) (sourceKey : String)
    (marketOpenMinutes : Nat) (s : VwapState) (c : Candle)
    (hv : c.volume = 0) :
    vwapStep tz resetDaily resetAtMarketOpen false sourceKey marketOpenMinutes s c
      = ⟨s.cumTPV, s.cumVolume, s.lastSessionKey,
         s.out ++ [⟨c.time,
           match s.out.getLast? with
           | some p => p.value
           | none => sourcePrice sourceKey c⟩]⟩
    ∧ calculateVWAP (some zeroVolBoundaryCandles) true exNSE false srcHlc3 false 0
        = [⟨1000, 30⟩, ⟨87000, 30⟩, ⟨87600, 40⟩] := by
  constructor
  · simp [vwapStep, hv]
  · norm_num [calculateVWAP, vwapStep, zeroVolBoundaryCandles, jsToLower, srcHlc3, srcClose,
      sourcePrice, sessionKeyOf, localDay, getMarketOpenMinutes, EXCHANGE_OPEN_MINUTES]

/-- Witness for C10 at a concrete state and candle. -/
theorem vwap_zero_volume_step_witness :
    vwapStep 0 true false false srcHlc3 555 ⟨90, 3, some 0, [⟨500, 30⟩]⟩ ⟨600, 10, 10, 10, 10, 0⟩
      = ⟨90, 3, some 0, [⟨500, 30⟩, ⟨600, 30⟩]⟩ :=
  (vwap_zero_volume_step 0 true false srcHlc3 555 ⟨90, 3, some 0, [⟨500, 30⟩]⟩
    ⟨600, 10, 10, 10, 10, 0⟩ rfl).1

/-- C7: with `resetAtMarketOpen`, a candle whose local time of day is 08:55
gets the previous local calendar day as its MCX session key (MCX opens at
09:00), so a previous-evening bar with the same key triggers no reset — the
accumulators keep accumulating; and the per-exchange open-minute table maps
NSE/BSE/NFO/BFO and the index segments to 09:15 and MCX/CDS/BCD to 09:00. -/
theorem vwap_mcx_premarket
    (tz : Nat) (sourceKey : String) (s : VwapState) (c : Candle)
    (hmin : localMinutesFromMidnight tz c.time = 8 * 60 + 55)
    (hv : c.volume ≠ 0)
    (hk : s.lastSessionKey = some ((localDay tz c.time : ℤ) - 1)) :
    sessionKeyOf tz (getMarketOpenMinutes exMCX) true c.time = (localDay tz c.time : ℤ) - 1
    ∧ getMarketOpenMinutes exMCX = 9 * 60
    ∧ getMarketOpenMinutes exCDS = 9 * 60
    ∧ getMarketOpenMinutes exBCD = 9 * 60
    ∧ getMarketOpenMinutes exNSE = 9 * 60 + 15
    ∧ getMarketOpenMinutes exBSE = 9 * 60 + 15
    ∧ getMarketOpenMinutes exNFO = 9 * 60 + 15
    ∧ getMarketOpenMinutes exBFO = 9 * 60 + 15
    ∧ getMarketOpenMinutes exNSEIdx = 9 * 60 + 15
    ∧ getMarketOpenMinutes exBSEIdx = 9 * 60 + 15
    ∧ (vwapStep tz true true false sourceKey (getMarketOpenMinutes exMCX) s c).cumTPV
        = s.cumTPV + sourcePrice sourceKey c * c.volume
    ∧ (vwapStep tz true true false sourceKey (getMarketOpenMinutes exMCX) s c).cumVolume
        = s.cumVolume + c.volume := by
  have hopen : getMarketOpenMinutes exMCX = 9 * 60 := by decide
  have hsk : sessionKeyOf tz (getMarketOpenMinutes exMCX) true c.time
      = (localDay tz c.time : ℤ) - 1 := by
    rw [hopen]
    unfold sessionKeyOf
    rw [hmin]
    norm_num
  refine ⟨hsk, hopen, by decide, by decide, by decide, by decide, by decide, by decide,
    by decide, by decide, ?_, ?_⟩
  · simp [vwapStep, hv, hk, hsk]
  · simp [vwapStep, hv, hk, hsk]

/-- Witness for C7: IST timezone, timestamp 98700 is 08:55 local on day 1. -/
theorem vwap_mcx_premarket_witness :
    (vwapStep 19800 true true false srcHlc3 (getMarketOpenMinutes exMCX)
        ⟨100, 10, some 0, [⟨98640, 10⟩]⟩ ⟨98700, 30, 30, 30, 30, 5⟩).cumVolume
      = (10 : ℚ) + 5 :=
  (vwap_mcx_premarket 19800 srcHlc3 ⟨100, 10, some 0, [⟨98640, 10⟩]⟩
    ⟨98700, 30, 30, 30, 30, 5⟩ (by decide) (by norm_num) (by decide)).2.2.2.2.2.2.2.2.2.2.2

/-- C1 counterexample: with brick size 1, an uptrend at brickPrice 12 hit by a
candle closing at exactly 12 − 2·1 = 10 emits TWO down bricks (12→11 and
11→10), not one: the four-brick output below refutes "exactly one down
brick". -/
theorem renko_reversal_cex :
    calculateRenko (some [⟨0, 10, 10, 10, 10⟩, ⟨60, 12, 12, 12, 12⟩, ⟨120, 10, 10, 10, 10⟩]) 1
      = [⟨0, 10, 11, 10, 11⟩, ⟨1, 11, 12, 11, 12⟩, ⟨2, 12, 12, 11, 11⟩, ⟨3, 11, 11, 10, 10⟩]
    ∧ (calculateRenko (some [⟨0, 10, 10, 10, 10⟩, ⟨60, 12, 12, 12, 12⟩, ⟨120, 10, 10, 10, 10⟩]) 1).length
        ≠ 3 := by
  have h : calculateRenko (some [⟨0, 10, 10, 10, 10⟩, ⟨60, 12, 12, 12, 12⟩, ⟨120, 10, 10, 10, 10⟩]) 1
      = [⟨0, 10, 11, 10, 11⟩, ⟨1, 11, 12, 11, 12⟩, ⟨2, 12, 12, 11, 11⟩, ⟨3, 11, 11, 10, 10⟩] := by
    have hdu : (Dir.down = Dir.up) = False := by simp
    norm_num [calculateRenko, renkoStep, emitBricks, mkBrick, Int.toNat_ofNat, hdu]
  exact ⟨h, by rw [h]; norm_num⟩

/-- Two down-bricks unfolding of `emitBricks`. -/
theorem emitBricks_two_down (baseTime : Nat) (box p : ℚ) (idx : Nat) :
    emitBricks baseTime box Dir.down 2 p idx
      = ([mkBrick baseTime idx p (p - box) Dir.down,
          mkBrick baseTime (idx + 1) (p - box) (p - box - box) Dir.down],
         p - box - box, idx + 2) := rfl

/-- Two up-bricks unfolding of `emitBricks`. -/
theorem emitBricks_two_up (baseTime : Nat) (box p : ℚ) (idx : Nat) :
    emitBricks baseTime box Dir.up 2 p idx
      = ([mkBrick baseTime idx p (p + box) Dir.up,
          mkBrick baseTime (idx + 1) (p + box) (p + box + box) Dir.up],
         p + box + box, idx + 2) := rfl

/-- C1 (amended): once an uptrend is established at brickPrice `P` with brick
size `B > 0`, a candle closing at exactly `P − 1.5·B` produces zero new bricks
(below the 2× reversal threshold), while a candle closing at exactly `P − 2·B`
produces exactly TWO down bricks of one box each (stepping `brickPrice` from
`P` down to `P − 2·B`) and flips the direction to down; symmetrically for a
downtrend. -/
theorem renko_reversal_threshold
    (boxSize P : ℚ) (baseTime : Nat) (sUp sDown : RenkoState) (c1 c2 c3 c4 : Bar)
    (hbox : 0 < boxSize)
    (hup : sUp.lastDirection = some Dir.up) (hupP : sUp.brickPrice = P)
    (hdn : sDown.lastDirection = some Dir.down) (hdnP : sDown.brickPrice = P)
    (hc1 : c1.close = P - 3 / 2 * boxSize)
    (hc2 : c2.close = P - 2 * boxSize)
    (hc3 : c3.close = P + 3 / 2 * boxSize)
    (hc4 : c4.close = P + 2 * boxSize) :
    renkoStep baseTime boxSize sUp c1 = sUp
    ∧ (renkoStep baseTime boxSize sUp c2).bricks
        = sUp.bricks ++
          [⟨baseTime + sUp.brickIndex * 1, P, P, P - boxSize, P - boxSize⟩,
           ⟨baseTime + (sUp.brickIndex + 1) * 1, P - boxSize, P - boxSize,
            P - 2 * boxSize, P - 2 * boxSize⟩]
    ∧ (renkoStep baseTime boxSize sUp c2).lastDirection = some Dir.down
    ∧ (renkoStep baseTime boxSize sUp c2).brickPrice = P - 2 * boxSize
    ∧ renkoStep baseTime boxSize sDown c3 = sDown
    ∧ (renkoStep baseTime boxSize sDown c4).bricks
        = sDown.bricks ++
          [⟨baseTime + sDown.brickIndex * 1, P, P + boxSize, P, P + boxSize⟩,
           ⟨baseTime + (sDown.brickIndex + 1) * 1, P + boxSize, P + 2 * boxSize,
            P + boxSize, P + 2 * boxSize⟩]
    ∧ (renkoStep baseTime boxSize sDown c4).lastDirection = some Dir.up
    ∧ (renkoStep baseTime boxSize sDown c4).brickPrice = P + 2 * boxSize := by
  have hbne : boxSize ≠ 0 := ne_of_gt hbox
  have hdu : (Dir.down = Dir.up) = False := by simp
  have hd1 : c1.close - sUp.brickPrice = -(3 / 2 * boxSize) := by rw [hupP, hc1]; ring
  have hd2 : c2.close - sUp.brickPrice = -(2 * boxSize) := by rw [hupP, hc2]; ring
  have hd3 : c3.close - sDown.brickPrice = 3 / 2 * boxSize := by rw [hdnP, hc3]; ring
  have hd4 : c4.close - sDown.brickPrice = 2 * boxSize := by rw [hdnP, hc4]; ring
  have hn2 : (⌊|c2.close - sUp.brickPrice| / boxSize⌋).toNat = 2 := by
    rw [hd2, abs_neg, abs_of_pos (by linarith), mul_div_cancel_right₀ _ hbne]
    norm_num
    rfl
  have hn4 : (⌊(c4.close - sDown.brickPrice) / boxSize⌋).toNat = 2 := by
    rw [hd4, mul_div_cancel_right₀ _ hbne]
    norm_num
    rfl
  have q1 : ¬ (boxSize ≤ c1.close - sUp.brickPrice) := by rw [hd1]; intro hx; linarith
  have q2 : ¬ (c1.close - sUp.brickPrice ≤ -(2 * boxSize)) := by rw [hd1]; intro hx; linarith
  have q3 : ¬ (boxSize ≤ c2.close - sUp.brickPrice) := by rw [hd2]; intro hx; linarith
  have q4 : c2.close - sUp.brickPrice ≤ -(2 * boxSize) := le_of_eq hd2
  have q5 : ¬ (c3.close - sDown.brickPrice ≤ -boxSize) := by rw [hd3]; intro hx; linarith
  have q6 : ¬ (2 * boxSize ≤ c3.close - sDown.brickPrice) := by rw [hd3]; intro hx; linarith
  have q7 : ¬ (c4.close - sDown.brickPrice ≤ -boxSize) := by rw [hd4]; intro hx; linarith
  have q8 : 2 * boxSize ≤ c4.close - sDown.brickPrice := le_of_eq hd4.symm
  refine ⟨?_, ?_, ?_, ?_, ?_, ?_, ?_, ?_⟩
  · simp only [renkoStep, hup]
    rw [if_neg q1, if_neg q2]
  · simp only [renkoStep, hup]
    rw [if_neg q3, if_pos q4, hn2, emitBricks_two_down baseTime boxSize sUp.brickPrice sUp.brickIndex]
    simp [mkBrick, hdu, hupP]
    all_goals ring
  · simp only [renkoStep, hup]
    rw [if_neg q3, if_pos q4]
  · simp only [renkoStep, hup]
    rw [if_neg q3, if_pos q4, hn2, emitBricks_two_down baseTime boxSize sUp.brickPrice sUp.brickIndex]
    simp [hupP]
    ring
  · simp only [renkoStep, hdn]
    rw [if_neg q5, if_neg q6]
  · simp only [renkoStep, hdn]
    rw [if_neg q7, if_pos q8, hn4, emitBricks_two_up baseTime boxSize sDown.brickPrice sDown.brickIndex]
    simp [mkBrick, hdu, hdnP]
    all_goals ring
  · simp only [renkoStep, hdn]
    rw [if_neg q7, if_pos q8]
  · simp only [renkoStep, hdn]
    rw [if_neg q7, if_pos q8, hn4, emitBricks_two_up baseTime boxSize sDown.brickPrice sDown.brickIndex]
    simp [hdnP]
    ring

/-- Witness for C1 (amended) at brick size 1, brickPrice 10: the no-brick half
at a close of 8.5 = 10 − 1.5·1. -/
theorem renko_reversal_threshold_witness :
    renkoStep 0 1 ⟨[], 10, some Dir.up, 0⟩ ⟨0, 0, 0, 0, 17 / 2⟩ = ⟨[], 10, some Dir.up, 0⟩ :=
  (renko_reversal_threshold 1 10 0 ⟨[], 10, some Dir.up, 0⟩ ⟨[], 10, some Dir.down, 0⟩
    ⟨0, 0, 0, 0, 17 / 2⟩ ⟨0, 0, 0, 0, 8⟩ ⟨0, 0, 0, 0, 23 / 2⟩ ⟨0, 0, 0, 0, 12⟩
    (by norm_num) rfl rfl rfl rfl (by norm_num) (by norm_num) (by norm_num) (by norm_num)).1

/-- Length of the consecutive-change list. -/
theorem priceChanges_length (l : List Bar) : (priceChanges l).length = l.length - 1 := by
  induction l with
  | nil => simp [priceChanges]
  | cons a rest ih =>
    cases rest with
    | nil => simp [priceChanges]
    | cons b rest2 =>
      rw [priceChanges]
      simpa using ih

/-- Along a strictly increasing close sequence every consecutive change is
positive. -/
theorem priceChanges_pos (l : List Bar)
    (h : List.Chain' (fun a b => a.close < b.close) l) :
    ∀ x ∈ priceChanges l, 0 < x := by
  induction l with
  | nil => intro x hx; simp [priceChanges] at hx
  | cons a rest ih =>
    cases rest with
    | nil => intro x hx; simp [priceChanges] at hx
    | cons b rest2 =>
      intro x hx
      rw [priceChanges] at hx
      rcases List.mem_cons.mp hx with h1 | h2
      · have hab := (List.chain'_cons.mp h).1
        rw [h1]
        linarith
      · exact ih (List.chain'_cons.mp h).2 x h2

/-- `rsiRec` emits one point per input triple. -/
theorem rsiRec_length (period : Nat) (ag al : ℚ) (trips : List (ℚ × ℚ × Nat)) :
    (rsiRec period ag al trips).length = trips.length := by
  induction trips generalizing ag al with
  | nil => simp [rsiRec]
  | cons t rest ih => rw [rsiRec]; simpa using ih _ _

/-- When the running average loss is zero and every incoming loss is zero,
Wilder smoothing keeps `avgLoss = 0`, the RS guard forces `RS = 100`, and
every emitted RSI value is `100 - 100 / (1 + 100)`. -/
theorem rsiRec_const (period : Nat) (trips : List (ℚ × ℚ × Nat)) :
    ∀ (ag al : ℚ), al = 0 → (∀ x ∈ trips, x.2.1 = 0) →
    (rsiRec period ag al trips).map (fun p => p.value)
      = List.replicate trips.length (100 - 100 / (1 + 100)) := by
  induction trips with
  | nil => intro ag al _ _; rw [rsiRec]; simp
  | cons t rest ih =>
    intro ag al hal hln
    rw [rsiRec]
    have ht : t.2.1 = 0 := hln t (List.mem_cons_self t rest)
    have hal2 : (al * ((period : ℚ) - 1) + t.2.1) / (period : ℚ) = 0 := by
      rw [hal, ht]; simp
    simp only [hal2, List.map_cons, List.length_cons, List.replicate_succ]
    congr 1
    exact ih _ _ rfl (fun x hx => hln x (List.mem_cons_of_mem t hx))

/-- An RSI value `100 - 100 / (1 + rs)` with `rs ≥ 0` lies in `[0, 100]`. -/
theorem rsi_value_bounds (rs : ℚ) (h : 0 ≤ rs) :
    0 ≤ 100 - 100 / (1 + rs) ∧ 100 - 100 / (1 + rs) ≤ 100 := by
  have h1 : (0 : ℚ) < 1 + rs := by linarith
  constructor
  · have hle : 100 / (1 + rs) ≤ 100 := by
      rw [div_le_iff₀ h1]
      nlinarith
    linarith
  · have hpos : 0 < 100 / (1 + rs) := div_pos (by norm_num) h1
    linarith

/-- With nonnegative running averages and nonnegative gains/losses, every
value emitted by `rsiRec` lies in `[0, 100]`. -/
theorem rsiRec_bounds (period : Nat) (hp : 1 ≤ period) (trips : List (ℚ × ℚ × Nat)) :
    ∀ (ag al : ℚ), 0 ≤ ag → 0 ≤ al → (∀ x ∈ trips, 0 ≤ x.1 ∧ 0 ≤ x.2.1) →
    ∀ p ∈ rsiRec period ag al trips, 0 ≤ p.value ∧ p.value ≤ 100 := by
  induction trips with
  | nil => intro ag al _ _ _ p hp2; rw [rsiRec] at hp2; simp at hp2
  | cons t rest ih =>
    intro ag al hag hal hmem p hp2
    have hpq : (0 : ℚ) ≤ (period : ℚ) - 1 := by
      have : (1 : ℚ) ≤ (period : ℚ) := by exact_mod_cast hp
      linarith
    have hper : (0 : ℚ) ≤ (period : ℚ) := Nat.cast_nonneg period
    have ht := hmem t (List.mem_cons_self t rest)
    have hag2 : 0 ≤ (ag * ((period : ℚ) - 1) + t.1) / (period : ℚ) :=
      div_nonneg (add_nonneg (mul_nonneg hag hpq) ht.1) hper
    have hal2 : 0 ≤ (al * ((period : ℚ) - 1) + t.2.1) / (period : ℚ) :=
      div_nonneg (add_nonneg (mul_nonneg hal hpq) ht.2) hper
    rw [rsiRec] at hp2
    rcases List.mem_cons.mp hp2 with h1 | h2
    · rw [h1]
      apply rsi_value_bounds
      by_cases hz : (al * ((period : ℚ) - 1) + t.2.1) / (period : ℚ) = 0
      · simp only [hz]
        norm_num
      · simp only [if_neg hz]
        exact div_nonneg hag2 hal2
    · exact ih _ _ hag2 hal2 (fun x hx => hmem x (List.mem_cons_of_mem t hx)) p h2

/-- Every value produced by `calculateRSIValues` lies in `[0, 100]`. -/
theorem calculateRSIValues_bounds (data : List Bar) (period : Nat) (hp : 1 ≤ period) :
    ∀ p ∈ calculateRSIValues data period, 0 ≤ p.value ∧ p.value ≤ 100 := by
  intro p hpmem
  rw [calculateRSIValues] at hpmem
  by_cases hg : data.length < period + 1
  · rw [if_pos hg] at hpmem
    simp at hpmem
  rw [if_neg hg] at hpmem
  have hgain : ∀ x ∈ (priceChanges data).map (fun change => if 0 < change then change else 0), 0 ≤ x := by
    intro x hx
    obtain ⟨d, _, rfl⟩ := List.mem_map.mp hx
    by_cases hd : 0 < d
    · rw [if_pos hd]; linarith
    · rw [if_neg hd]
  have hloss : ∀ x ∈ (priceChanges data).map (fun change => if change < 0 then |change| else 0), 0 ≤ x := by
    intro x hx
    obtain ⟨d, _, rfl⟩ := List.mem_map.mp hx
    by_cases hd : d < 0
    · rw [if_pos hd]; exact abs_nonneg d
    · rw [if_neg hd]
  have hper : (0 : ℚ) ≤ (period : ℚ) := Nat.cast_nonneg period
  have hag : 0 ≤ (((priceChanges data).map (fun change => if 0 < change then change else 0)).take period).sum / (period : ℚ) :=
    div_nonneg (List.sum_nonneg (fun x hx => hgain x (List.mem_of_mem_take hx))) hper
  have hal : 0 ≤ (((priceChanges data).map (fun change => if change < 0 then |change| else 0)).take period).sum / (period : ℚ) :=
    div_nonneg (List.sum_nonneg (fun x hx => hloss x (List.mem_of_mem_take hx))) hper
  rcases List.mem_cons.mp hpmem with h1 | h2
  · rw [h1]
    apply rsi_value_bounds
    by_cases hz : (((priceChanges data).map (fun change => if change < 0 then |change| else 0)).take period).sum / (period : ℚ) = 0
    · simp only [hz]
      norm_num
    · simp only [if_neg hz]
      exact div_nonneg hag hal
  · refine rsiRec_bounds period hp _ _ _ hag hal ?_ p h2
    intro x hx
    have hx1 := (List.of_mem_zip hx).1
    have hx2 := (List.of_mem_zip (List.of_mem_zip hx).2).1
    exact ⟨hgain _ (List.mem_of_mem_drop hx1), hloss _ (List.mem_of_mem_drop hx2)⟩

/-- Output length of `calculateRSIValues` when the guard passes: one value per
bar after the first `period`. -/
theorem calculateRSIValues_length (data : List Bar) (period : Nat)
    (h : ¬ data.length < period + 1) :
    (calculateRSIValues data period).length = data.length - period := by
  rw [calculateRSIValues, if_neg h]
  simp [rsiRec_length, priceChanges_length, List.length_zip, List.length_drop, List.length_map]
  omega

/-- On a strictly rising close sequence all losses are zero, so every RSI
value equals `100 - 100 / (1 + 100)` (the RS = 100 guard value). -/
theorem calculateRSIValues_rising (data : List Bar) (period : Nat)
    (hp : 1 ≤ period) (hlen : period < data.length)
    (hmono : List.Chain' (fun a b => a.close < b.close) data) :
    (calculateRSIValues data period).map (fun p => p.value)
      = List.replicate (data.length - period) (100 - 100 / (1 + 100)) := by
  have hguard : ¬ (data.length < period + 1) := by omega
  rw [calculateRSIValues, if_neg hguard]
  have hdpos := priceChanges_pos data hmono
  have hloss0 : ∀ x ∈ (priceChanges data).map (fun change => if change < 0 then |change| else 0), x = 0 := by
    intro x hx
    obtain ⟨d, hd, rfl⟩ := List.mem_map.mp hx
    rw [if_neg (by have := hdpos d hd; linarith)]
  have havg : (((priceChanges data).map (fun change => if change < 0 then |change| else 0)).take period).sum / (period : ℚ) = 0 := by
    rw [List.sum_eq_zero (fun x hx => hloss0 x (List.mem_of_mem_take hx)), zero_div]
  simp only [havg]
  obtain ⟨k, hk⟩ : ∃ k, data.length - period = k + 1 := ⟨data.length - period - 1, by omega⟩
  rw [List.map_cons, hk, List.replicate_succ]
  refine List.cons_eq_cons.mpr ⟨by simp, ?_⟩
  rw [rsiRec_const period _ _ 0 rfl (fun x hx => hloss0 _ (List.mem_of_mem_drop (List.of_mem_zip (List.of_mem_zip hx).2).1))]
  congr 1
  simp only [List.length_zip, List.length_drop, List.length_map, priceChanges_length]
  omega

/-- The 30 rising candles have strictly increasing closes. -/
theorem risingCandles30_chain :
    List.Chain' (fun a b => a.close < b.close) risingCandles30 := by
  rw [risingCandles30, List.chain'_map, List.chain'_iff_get]
  intro i h
  simp only [List.get_range]
  have hi : (i : ℚ) < (i : ℚ) + 1 := by linarith
  push_cast
  linarith

/-- C3: for every strictly monotonically increasing close sequence longer than
the period, avgLoss stays 0, the RS = 100 guard applies, and every RSI value
equals exactly `100 - 100 / (1 + 100)` (≈ 99.0099, not literal 100); in
particular for 30 daily candles rising by 1 with rsiLength 9 the output has
length 30 − 9 = 21 and its first value is `100 - 100 / (1 + 100)`. -/
theorem rsi_rising_sequence
    (data : List Bar) (period : Nat)
    (hp : 1 ≤ period) (hlen : period < data.length)
    (hmono : List.Chain' (fun a b => a.close < b.close) data) :
    (calculateRSIValues data period).map (fun p => p.value)
        = List.replicate (data.length - period) (100 - 100 / (1 + 100))
    ∧ (calculateRSIValues data period).length = data.length - period
    ∧ (calculateRSIValues risingCandles30 9).length = 21
    ∧ ((calculateRSIValues risingCandles30 9).head?).map (fun p => p.value)
        = some (100 - 100 / (1 + 100)) := by
  have h30len : risingCandles30.length = 30 := by simp [risingCandles30]
  have h30 := calculateRSIValues_rising risingCandles30 9 (by norm_num)
    (by rw [h30len]; norm_num) risingCandles30_chain
  have h30l : (calculateRSIValues risingCandles30 9).length = 21 := by
    rw [calculateRSIValues_length _ _ (by rw [h30len]; norm_num), h30len]
  refine ⟨calculateRSIValues_rising data period hp hlen hmono,
    calculateRSIValues_length data period (by omega), h30l, ?_⟩
  rw [← List.head?_map, h30, h30len]
  rw [show (30 : ℕ) - 9 = 20 + 1 from rfl, List.replicate_succ]
  rfl

/-- Witness for C3: the 30-candle rising scenario itself. -/
theorem rsi_rising_sequence_witness :
    (calculateRSIValues risingCandles30 9).length = 21 :=
  (rsi_rising_sequence risingCandles30 9 (by norm_num)
    (by simp [risingCandles30]) risingCandles30_chain).2.2.1

/-- Every point of the `rsiLine` returned by `calculateHilengaMilenga` has its
value in `[0, 100]`. -/
theorem hm_rsiLine_bounds (data : Option (List Bar)) (rsiLength emaLength wmaLength : Nat)
    (hp : 1 ≤ rsiLength) :
    ∀ p ∈ (calculateHilengaMilenga data rsiLength emaLength wmaLength).rsiLine,
      0 ≤ p.value ∧ p.value ≤ 100 := by
  cases data with
  | none => intro p hpmem; simp [calculateHilengaMilenga] at hpmem
  | some l =>
    intro p hpmem
    by_cases hg : l.length < Nat.max rsiLength wmaLength + 1
    · simp [calculateHilengaMilenga, hg] at hpmem
    by_cases hz : (calculateRSIValues l rsiLength).length = 0
    · simp [calculateHilengaMilenga, hg, hz] at hpmem
    simp only [calculateHilengaMilenga, if_neg hg, if_neg hz] at hpmem
    obtain ⟨r, hr, hpr⟩ := List.mem_map.mp hpmem
    have hb := calculateRSIValues_bounds l rsiLength hp r hr
    rw [← hpr]
    exact hb

/-- C5: for every input candle array and valid parameters (`rsiLength ≥ 1`),
every value on the `rsiLine` returned by `calculateHilengaMilenga` lies in the
closed interval `[0, 100]`. -/
theorem hm_rsi_bounds
    (data : Option (List Bar)) (rsiLength emaLength wmaLength i : Nat)
    (hp : 1 ≤ rsiLength)
    (hi : i < (calculateHilengaMilenga data rsiLength emaLength wmaLength).rsiLine.length) :
    0 ≤ ((calculateHilengaMilenga data rsiLength emaLength wmaLength).rsiLine.get ⟨i, hi⟩).value
    ∧ ((calculateHilengaMilenga data rsiLength emaLength wmaLength).rsiLine.get ⟨i, hi⟩).value ≤ 100 :=
  hm_rsiLine_bounds data rsiLength emaLength wmaLength hp _ (List.get_mem _ _ _)

/-- Witness for C5 at a concrete four-bar input with rsiLength 2. -/
theorem hm_rsi_bounds_witness :
    0 ≤ ((calculateHilengaMilenga (some [⟨0, 0, 0, 0, 1⟩, ⟨1, 0, 0, 0, 3⟩, ⟨2, 0, 0, 0, 2⟩, ⟨3, 0, 0, 0, 5⟩]) 2 2 2).rsiLine.get
          ⟨0, by simp [calculateHilengaMilenga, List.length_map, calculateRSIValues_length]⟩).value
    ∧ ((calculateHilengaMilenga (some [⟨0, 0, 0, 0, 1⟩, ⟨1, 0, 0, 0, 3⟩, ⟨2, 0, 0, 0, 2⟩, ⟨3, 0, 0, 0, 5⟩]) 2 2 2).rsiLine.get
          ⟨0, by simp [calculateHilengaMilenga, List.length_map, calculateRSIValues_length]⟩).value ≤ 100 :=
  hm_rsi_bounds (some [⟨0, 0, 0, 0, 1⟩, ⟨1, 0, 0, 0, 3⟩, ⟨2, 0, 0, 0, 2⟩, ⟨3, 0, 0, 0, 5⟩]) 2 2 2 0
    (by norm_num) (by simp [calculateHilengaMilenga, List.length_map, calculateRSIValues_length])

/-- `emaRec` emits one value per input value. -/
theorem emaRec_length (k : ℚ) (vs : List ℚ) :
    ∀ e : ℚ, (emaRec k e vs).length = vs.length := by
  induction vs with
  | nil => intro e; simp [emaRec]
  | cons v rest ih => intro e; rw [emaRec]; simpa using ih _

/-- Output length of `calculateEMAOfValues` when enough values exist. -/
theorem calculateEMAOfValues_length (values : List ℚ) (period : Nat)
    (h : period ≤ values.length) :
    (calculateEMAOfValues values period).length = values.length - period + 1 := by
  rw [calculateEMAOfValues, if_neg (by omega)]
  simp [emaRec_length]

/-- Output length of `calculateWMAOfValues` when enough values exist. -/
theorem calculateWMAOfValues_length (values : List ℚ) (period : Nat)
    (h : period ≤ values.length) :
    (calculateWMAOfValues values period).length = values.length - (period - 1) := by
  rw [calculateWMAOfValues, if_neg (by omega)]
  simp

/-- `alignLineAux` keeps every smoothed value while the offset indices stay in
range. -/
theorem alignLineAux_length (rsi : List TV) (vals : List ℚ) :
    ∀ start : Nat, start + vals.length ≤ rsi.length →
    (alignLineAux rsi start vals).length = vals.length := by
  induction vals with
  | nil => intro start _; simp [alignLineAux]
  | cons v vs ih =>
    intro start h
    have hlt : start < rsi.length := by simp at h; omega
    rw [alignLineAux, List.getElem?_eq_getElem hlt]
    simp only [List.length_cons]
    rw [ih (start + 1) (by simp at h ⊢; omega)]

/-- Head unfolding of `alignLineAux` when the start index is in range. -/
theorem alignLineAux_head (rsi : List TV) (v : ℚ) (vs : List ℚ) (start : Nat) (r : TV)
    (hr : rsi[start]? = some r) :
    alignLineAux rsi start (v :: vs) = ⟨r.time, v⟩ :: alignLineAux rsi (start + 1) vs := by
  rw [alignLineAux, hr]

/-- Closed form of `calculateHilengaMilenga` on an array passing both guards. -/
theorem hm_some_eq (l : List Bar) (rL eL wL : Nat)
    (hg : ¬ l.length < Nat.max rL wL + 1)
    (hz : ¬ (calculateRSIValues l rL).length = 0) :
    calculateHilengaMilenga (some l) rL eL wL
      = ⟨(calculateRSIValues l rL).map (fun r => ⟨r.time, r.value⟩),
         alignLineAux (calculateRSIValues l rL) (eL - 1)
           (calculateEMAOfValues ((calculateRSIValues l rL).map (fun r => r.value)) eL),
         alignLineAux (calculateRSIValues l rL) (wL - 1)
           (calculateWMAOfValues ((calculateRSIValues l rL).map (fun r => r.value)) wL)⟩ := by
  simp only [calculateHilengaMilenga, if_neg hg, if_neg hz]

/-- C4: whenever `calculateHilengaMilenga` returns a non-empty result (both
smoothed lines have at least one point, i.e. `emaLength` and `wmaLength` fit
inside the RSI line), the smoothed lines are length- and time-aligned to the
RSI line: `emaLine.length = rsiLine.length - (emaLength - 1)`, the first
`emaLine` point's time equals `rsiLine[emaLength - 1].time`, and symmetrically
the `wmaLine` is offset `wmaLength - 1` positions into the RSI array. -/
theorem hm_alignment
    (data : Option (List Bar)) (rsiLength emaLength wmaLength : Nat)
    (he1 : 1 ≤ emaLength) (hw1 : 1 ≤ wmaLength)
    (he2 : emaLength ≤ (calculateHilengaMilenga data rsiLength emaLength wmaLength).rsiLine.length)
    (hw2 : wmaLength ≤ (calculateHilengaMilenga data rsiLength emaLength wmaLength).rsiLine.length) :
    (calculateHilengaMilenga data rsiLength emaLength wmaLength).emaLine.length
        = (calculateHilengaMilenga data rsiLength emaLength wmaLength).rsiLine.length - (emaLength - 1)
    ∧ ((calculateHilengaMilenga data rsiLength emaLength wmaLength).emaLine.head?).map (fun p => p.time)
        = ((calculateHilengaMilenga data rsiLength emaLength wmaLength).rsiLine[emaLength - 1]?).map (fun p => p.time)
    ∧ (calculateHilengaMilenga data rsiLength emaLength wmaLength).wmaLine.length
        = (calculateHilengaMilenga data rsiLength emaLength wmaLength).rsiLine.length - (wmaLength - 1)
    ∧ ((calculateHilengaMilenga data rsiLength emaLength wmaLength).wmaLine.head?).map (fun p => p.time)
        = ((calculateHilengaMilenga data rsiLength emaLength wmaLength).rsiLine[wmaLength - 1]?).map (fun p => p.time) := by
  cases data with
  | none =>
    exfalso
    simp [calculateHilengaMilenga] at he2
    omega
  | some l =>
    by_cases hg : l.length < Nat.max rsiLength wmaLength + 1
    · exfalso
      simp [calculateHilengaMilenga, hg] at he2
      omega
    by_cases hz : (calculateRSIValues l rsiLength).length = 0
    · exfalso
      simp [calculateHilengaMilenga, hg, hz] at he2
      omega
    have heq := hm_some_eq l rsiLength emaLength wmaLength hg hz
    rw [heq] at he2 hw2 ⊢
    simp only [List.length_map] at he2 hw2
    have hELen : (calculateEMAOfValues ((calculateRSIValues l rsiLength).map (fun r => r.value)) emaLength).length
        = (calculateRSIValues l rsiLength).length - emaLength + 1 := by
      rw [calculateEMAOfValues_length]
      · simp
      · simp
        omega
    have hWLen : (calculateWMAOfValues ((calculateRSIValues l rsiLength).map (fun r => r.value)) wmaLength).length
        = (calculateRSIValues l rsiLength).length - (wmaLength - 1) := by
      rw [calculateWMAOfValues_length]
      · simp
      · simp
        omega
    have heLt : emaLength - 1 < (calculateRSIValues l rsiLength).length := by omega
    have hwLt : wmaLength - 1 < (calculateRSIValues l rsiLength).length := by omega
    refine ⟨?_, ?_, ?_, ?_⟩
    · simp only [List.length_map]
      rw [alignLineAux_length _ _ _ (by rw [hELen]; omega), hELen]
      omega
    · rw [calculateEMAOfValues, if_neg (by simp; omega)]
      rw [alignLineAux_head _ _ _ _ _ (List.getElem?_eq_getElem heLt)]
      rw [List.getElem?_map, List.getElem?_eq_getElem heLt]
      simp
    · simp only [List.length_map]
      rw [alignLineAux_length _ _ _ (by rw [hWLen]; omega), hWLen]
    · rw [calculateWMAOfValues, if_neg (by simp; omega)]
      obtain ⟨m, hm⟩ : ∃ m, ((calculateRSIValues l rsiLength).map (fun r => r.value)).length - (wmaLength - 1) = m + 1 :=
        ⟨((calculateRSIValues l rsiLength).map (fun r => r.value)).length - (wmaLength - 1) - 1, by simp; omega⟩
      rw [hm, List.range_succ_eq_map, List.map_cons]
      rw [alignLineAux_head _ _ _ _ _ (List.getElem?_eq_getElem hwLt)]
      rw [List.getElem?_map, List.getElem?_eq_getElem hwLt]
      simp

/-- Witness for C4 at a concrete six-bar input, rsiLength 2, emaLength 2,
wmaLength 3. -/
theorem hm_alignment_witness :
    (calculateHilengaMilenga (some [⟨0, 0, 0, 0, 1⟩, ⟨1, 0, 0, 0, 3⟩, ⟨2, 0, 0, 0, 2⟩,
        ⟨3, 0, 0, 0, 5⟩, ⟨4, 0, 0, 0, 4⟩, ⟨5, 0, 0, 0, 6⟩]) 2 2 3).emaLine.length
      = (calculateHilengaMilenga (some [⟨0, 0, 0, 0, 1⟩, ⟨1, 0, 0, 0, 3⟩, ⟨2, 0, 0, 0, 2⟩,
          ⟨3, 0, 0, 0, 5⟩, ⟨4, 0, 0, 0, 4⟩, ⟨5, 0, 0, 0, 6⟩]) 2 2 3).rsiLine.length - (2 - 1) :=
  (hm_alignment (some [⟨0, 0, 0, 0, 1⟩, ⟨1, 0, 0, 0, 3⟩, ⟨2, 0, 0, 0, 2⟩,
      ⟨3, 0, 0, 0, 5⟩, ⟨4, 0, 0, 0, 4⟩, ⟨5, 0, 0, 0, 6⟩]) 2 2 3
    (by norm_num) (by norm_num)
    (by simp [calculateHilengaMilenga, List.length_map, calculateRSIValues_length])
    (by simp [calculateHilengaMilenga, List.length_map, calculateRSIValues_length])).1

/-- The index-threshold `continue` of `calculateVolumeMA` turns the index loop
into a map over the in-range indices. -/
theorem filterMap_range_threshold (g : ℕ → TV) (t n : ℕ) :
    (List.range n).filterMap (fun i => if i < t then none else some (g i))
      = (List.range' t (n - t)).map g := by
  induction n with
  | zero => simp
  | succ n ih =>
    rw [List.range_succ, List.filterMap_append, ih]
    by_cases hn : n < t
    · have h1 : n + 1 - t = 0 := by omega
      have h2 : n - t = 0 := by omega
      simp [hn, h1, h2]
    · have h1 : n + 1 - t = (n - t) + 1 := by omega
      rw [h1]
      have h2 := @List.range'_concat 1 t (n - t)
      simp only [one_mul] at h2
      rw [h2]
      have h3 : t + (n - t) = n := by omega
      simp [hn, h3]

/-- Closed form of `calculateVolumeMA`: one point per index from
`period - 1` up. -/
theorem calculateVolumeMA_closed (l : List Candle) (period : Nat) :
    calculateVolumeMA (some l) period
      = (List.range' (period - 1) (l.length - (period - 1))).map
          (fun i => ⟨timeAtD l i,
            (((List.range period).map (fun j => volAt l (i - j))).sum) / (period : ℚ)⟩) := by
  rw [calculateVolumeMA]
  by_cases h0 : l.length = 0
  · rw [if_pos h0, h0]
    simp
  · rw [if_neg h0, filterMap_range_threshold]

/-- Reflecting the summation index over a `List.range` leaves the sum
unchanged. -/
theorem sum_range_reflect_list (n : ℕ) : ∀ f : ℕ → ℚ,
    ((List.range n).map (fun j => f (n - 1 - j))).sum = ((List.range n).map f).sum := by
  induction n with
  | zero => intro f; simp
  | succ n ih =>
    intro f
    have hA : ((List.range (n + 1)).map f).sum = ((List.range n).map f).sum + f n := by
      rw [List.range_succ, List.map_append, List.sum_append]
      simp
    have hB : ((List.range (n + 1)).map (fun j => f (n + 1 - 1 - j))).sum
        = f n + ((List.range n).map (fun j => f (n - 1 - j))).sum := by
      rw [List.range_succ_eq_map, List.map_cons, List.sum_cons, List.map_map]
      have h0 : n + 1 - 1 - 0 = n := by omega
      have hstep : (List.range n).map ((fun j => f (n + 1 - 1 - j)) ∘ Nat.succ)
          = (List.range n).map (fun j => f (n - 1 - j)) := by
        apply List.map_congr_left
        intro a _
        simp only [Function.comp]
        congr 1
        omega
      rw [hstep, h0]
    rw [hB, ih f, hA]
    ring

/-- A contiguous volume-window sum written with forward indices. -/
theorem slice_sum (l : List Candle) : ∀ (p k : ℕ), k + p ≤ l.length →
    (((l.drop k).take p).map (fun c => c.volume)).sum
      = ((List.range p).map (fun j => volAt l (k + j))).sum := by
  intro p
  induction p with
  | zero => intro k _; simp
  | succ p ih =>
    intro k h
    have hk : k < l.length := by omega
    rw [List.drop_eq_getElem_cons hk, List.take_succ_cons, List.map_cons, List.sum_cons]
    rw [ih (k + 1) (by omega)]
    rw [List.range_succ_eq_map, List.map_cons, List.sum_cons, List.map_map]
    have hhead : l[k].volume = volAt l (k + 0) := by
      simp [volAt, List.getElem?_eq_getElem hk]
    have hstep : (List.range p).map ((fun j => volAt l (k + j)) ∘ Nat.succ)
        = (List.range p).map (fun j => volAt l (k + 1 + j)) := by
      apply List.map_congr_left
      intro a _
      simp only [Function.comp]
      congr 1
      omega
    rw [hhead, hstep]

/-- The descending-index window sum of the source loop equals the ascending
window sum. -/
theorem window_sum_rev (l : List Candle) (p k : ℕ) :
    ((List.range p).map (fun j => volAt l (p - 1 + k - j))).sum
      = ((List.range p).map (fun j => volAt l (k + j))).sum := by
  have hr := sum_range_reflect_list p (fun j => volAt l (k + j))
  rw [← hr]
  apply congrArg
  apply List.map_congr_left
  intro j hj
  have hjp : j < p := List.mem_range.mp hj
  congr 1
  omega

/-- C9: `calculateVolumeMA(data, period)` emits no point for the first
`period - 1` candles; the point at output index `k` (source index
`period - 1 + k`) carries that candle's time and the arithmetic mean of the
volumes over source indices `k .. k + period - 1`; with period 20 the first
point sits at source index 19 and averages indices 0..19. -/
theorem volumeMA_window (l : List Candle) (period k : Nat)
    (hp : 1 ≤ period) (hpl : period ≤ l.length)
    (hk : k < l.length - (period - 1)) :
    (calculateVolumeMA (some l) period).length = l.length - (period - 1)
    ∧ (calculateVolumeMA (some l) period)[k]?
        = some ⟨timeAtD l (period - 1 + k),
            ((((l.drop k).take period).map (fun c => c.volume)).sum) / (period : ℚ)⟩
    ∧ (calculateVolumeMA (some volCandles20) 20).head? = some ⟨19, 21 / 2⟩ := by
  refine ⟨?_, ?_, ?_⟩
  · rw [calculateVolumeMA_closed]
    simp
  · rw [calculateVolumeMA_closed, List.getElem?_map, List.getElem?_range' _ _ hk]
    simp only [one_mul, Option.map_some']
    have hsum : ((List.range period).map (fun j => volAt l (period - 1 + k - j))).sum
        = (((l.drop k).take period).map (fun c => c.volume)).sum := by
      rw [window_sum_rev, ← slice_sum l period k (by omega)]
    rw [hsum]
  · rw [calculateVolumeMA_closed]
    have hlen : volCandles20.length = 20 := rfl
    rw [hlen]
    have hr : List.range' (20 - 1) (20 - (20 - 1)) = [19] := rfl
    rw [hr, List.map_cons]
    have ht : timeAtD volCandles20 19 = 19 := rfl
    have hv : (List.range 20).map (fun j => volAt volCandles20 (19 - j))
        = [20, 19, 18, 17, 16, 15, 14, 13, 12, 11, 10, 9, 8, 7, 6, 5, 4, 3, 2, 1] := rfl
    rw [List.map_nil]
    simp only [List.head?_cons, Option.some.injEq, TV.mk.injEq]
    constructor
    · exact ht
    · rw [hv]
      norm_num [List.sum_cons]

/-- Witness for C9 on the 20-candle input with period 20. -/
theorem volumeMA_window_witness :
    (calculateVolumeMA (some volCandles20) 20).length = volCandles20.length - (20 - 1) :=
  (volumeMA_window volCandles20 20 0 (by decide) (by decide) (by decide)).1

/-- Concatenation of adjacent `List.range'` blocks. -/
theorem range'_merge (s m n : Nat) :
    List.range' s m ++ List.range' (s + m) n = List.range' s (m + n) := by
  have h := List.range'_append s m n 1
  simp only [one_mul] at h
  rw [h, Nat.add_comm n m]

/-- `List.range'` is strictly increasing. -/
theorem chain'_lt_range' (s n : Nat) :
    List.Chain' (fun a b => a < b) (List.range' s n) := by
  induction n generalizing s with
  | zero => simp
  | succ n ih =>
    rw [List.range'_succ]
    cases n with
    | zero => simp
    | succ m =>
      rw [List.range'_succ]
      exact List.Chain'.cons (by omega) (by rw [← List.range'_succ]; exact ih (s + 1))

/-- The bricks emitted by `emitBricks` carry the consecutive synthetic
timestamps `baseTime + idx .. baseTime + idx + n - 1`, and the brick index
advances by `n`. -/
theorem emitBricks_spec (baseTime : Nat) (box : ℚ) (d : Dir) : ∀ (n : Nat) (p : ℚ) (idx : Nat),
    (emitBricks baseTime box d n p idx).1.map (fun b => b.time) = List.range' (baseTime + idx) n
    ∧ (emitBricks baseTime box d n p idx).2.2 = idx + n := by
  intro n
  induction n with
  | zero => intro p idx; simp [emitBricks]
  | succ n ih =>
    intro p idx
    have h := ih (if d = Dir.up then p + box else p - box) (idx + 1)
    rw [emitBricks]
    refine ⟨?_, ?_⟩
    · simp only [List.map_cons, h.1, List.range'_succ]
      congr 1
      simp [mkBrick]
    · simp only [h.2]
      omega

/-- Appending an `emitBricks` run preserves the timestamp invariant. -/
theorem renko_append_inv (baseTime : Nat) (box : ℚ) (s : RenkoState) (d : Dir) (n : Nat) (p : ℚ)
    (h1 : s.bricks.map (fun b => b.time) = List.range' baseTime s.bricks.length)
    (h2 : s.brickIndex = s.bricks.length) :
    (s.bricks ++ (emitBricks baseTime box d n p s.brickIndex).1).map (fun b => b.time)
      = List.range' baseTime (s.bricks ++ (emitBricks baseTime box d n p s.brickIndex).1).length
    ∧ (emitBricks baseTime box d n p s.brickIndex).2.2
      = (s.bricks ++ (emitBricks baseTime box d n p s.brickIndex).1).length := by
  have he := emitBricks_spec baseTime box d n p s.brickIndex
  have hlen : (emitBricks baseTime box d n p s.brickIndex).1.length = n := by
    have hc := congrArg List.length he.1
    simpa using hc
  constructor
  · rw [List.map_append, h1, he.1, List.length_append, hlen, h2, range'_merge]
  · rw [List.length_append, hlen, he.2, h2]

/-- One `calculateRenko` loop iteration preserves the timestamp invariant. -/
theorem renkoStep_inv (baseTime : Nat) (box : ℚ) (s : RenkoState) (c : Bar)
    (h1 : s.bricks.map (fun b => b.time) = List.range' baseTime s.bricks.length)
    (h2 : s.brickIndex = s.bricks.length) :
    (renkoStep baseTime box s c).bricks.map (fun b => b.time)
        = List.range' baseTime (renkoStep baseTime box s c).bricks.length
    ∧ (renkoStep baseTime box s c).brickIndex = (renkoStep baseTime box s c).bricks.length := by
  rcases hdd : s.lastDirection with _ | d
  · simp only [renkoStep, hdd]
    split
    · exact renko_append_inv baseTime box s Dir.up _ _ h1 h2
    · split
      · exact renko_append_inv baseTime box s Dir.down _ _ h1 h2
      · exact ⟨h1, h2⟩
  · cases d
    · simp only [renkoStep, hdd]
      split
      · exact renko_append_inv baseTime box s Dir.up _ _ h1 h2
      · split
        · exact renko_append_inv baseTime box s Dir.down _ _ h1 h2
        · exact ⟨h1, h2⟩
    · simp only [renkoStep, hdd]
      split
      · exact renko_append_inv baseTime box s Dir.down _ _ h1 h2
      · split
        · exact renko_append_inv baseTime box s Dir.up _ _ h1 h2
        · exact ⟨h1, h2⟩

/-- The whole `calculateRenko` loop preserves the timestamp invariant. -/
theorem renko_fold_inv (baseTime : Nat) (box : ℚ) (l : List Bar) : ∀ (s : RenkoState),
    s.bricks.map (fun b => b.time) = List.range' baseTime s.bricks.length →
    s.brickIndex = s.bricks.length →
    ((l.foldl (renkoStep baseTime box) s).bricks.map (fun b => b.time)
        = List.range' baseTime (l.foldl (renkoStep baseTime box) s).bricks.length
    ∧ (l.foldl (renkoStep baseTime box) s).brickIndex
        = (l.foldl (renkoStep baseTime box) s).bricks.length) := by
  induction l with
  | nil => intro s h1 h2; exact ⟨h1, h2⟩
  | cons c rest ih =>
    intro s h1 h2
    rw [List.foldl_cons]
    have hstep := renkoStep_inv baseTime box s c h1 h2
    exact ih _ hstep.1 hstep.2

/-- C6: for every non-empty input and positive brick size, `calculateRenko`
returns a non-empty brick array whose times are exactly
`baseTime, baseTime + 1, baseTime + 2, ...` (i.e. `baseTime + brickIndex · 1`,
independent of the source candles' wall-clock times), hence strictly
increasing with no duplicates — including the single fallback brick emitted
when no full-brick move occurred. -/
theorem renko_synthetic_times (b : Bar) (rest : List Bar) (boxSize : ℚ)
    (hbox : 0 < boxSize) :
    calculateRenko (some (b :: rest)) boxSize ≠ []
    ∧ (calculateRenko (some (b :: rest)) boxSize).map (fun x => x.time)
        = List.range' b.time (calculateRenko (some (b :: rest)) boxSize).length
    ∧ List.Chain' (fun x y => x < y)
        ((calculateRenko (some (b :: rest)) boxSize).map (fun x => x.time)) := by
  have hne : ¬ ((b :: rest).length = 0) := by simp
  have hpos : ¬ (boxSize ≤ 0) := not_le.mpr hbox
  simp only [calculateRenko, if_neg hne, if_neg hpos]
  have hinv := renko_fold_inv b.time boxSize (b :: rest)
    ⟨[], (⌊b.close / boxSize⌋ : ℚ) * boxSize, none, 0⟩ (by simp) rfl
  by_cases hFz : ((b :: rest).foldl (renkoStep b.time boxSize)
      ⟨[], (⌊b.close / boxSize⌋ : ℚ) * boxSize, none, 0⟩).bricks.length = 0
  · rw [if_pos hFz]
    obtain ⟨lastC, hl⟩ : ∃ x, (b :: rest).getLast? = some x :=
      ⟨(b :: rest).getLast (by simp), List.getLast?_eq_getLast _ (by simp)⟩
    rw [hl]
    have hidx : ((b :: rest).foldl (renkoStep b.time boxSize)
        ⟨[], (⌊b.close / boxSize⌋ : ℚ) * boxSize, none, 0⟩).brickIndex = 0 := by
      rw [hinv.2, hFz]
    rw [hidx]
    have hone : List.range' b.time 1 = [b.time] := rfl
    refine ⟨by simp, ?_, ?_⟩
    · simp [mkBrick, hone]
    · simp
  · rw [if_neg hFz]
    refine ⟨?_, hinv.1, ?_⟩
    · intro hnil
      rw [hnil] at hFz
      simp at hFz
    · rw [hinv.1]
      exact chain'_lt_range' _ _

/-- Witness for C6: a single candle with no full-brick move yields the one
fallback brick. -/
theorem renko_synthetic_times_witness :
    calculateRenko (some [⟨5, 10, 10, 10, 10⟩]) 1 ≠ [] :=
  (renko_synthetic_times ⟨5, 10, 10, 10, 10⟩ [] 1 (by norm_num)).1

/-- Every `calculateVWAP` loop iteration appends exactly one output point. -/
theorem vwapStep_out_append (tz : Nat) (resetDaily resetAtMarketOpen ignoreVolume : Bool)
    (sk : String) (mo : Nat) (s : VwapState) (c : Candle) :
    ∃ x, (vwapStep tz resetDaily resetAtMarketOpen ignoreVolume sk mo s c).out = s.out ++ [x] := by
  rw [vwapStep]
  by_cases h : (if ignoreVolume then (1 : ℚ) else c.volume) = 0 ∧ ¬ignoreVolume = true
  · rw [if_pos h]
    exact ⟨_, rfl⟩
  · rw [if_neg h]
    exact ⟨_, rfl⟩

/-- The `calculateVWAP` loop extends the output by one point per candle. -/
theorem vwap_fold_out (tz : Nat) (resetDaily resetAtMarketOpen ignoreVolume : Bool)
    (sk : String) (mo : Nat) (l : List Candle) :
    ∀ s : VwapState,
    ∃ ext, (l.foldl (vwapStep tz resetDaily resetAtMarketOpen ignoreVolume sk mo) s).out
        = s.out ++ ext ∧ ext.length = l.length := by
  induction l with
  | nil => intro s; exact ⟨[], by simp, rfl⟩
  | cons c rest ih =>
    intro s
    rw [List.foldl_cons]
    obtain ⟨x, hx⟩ := vwapStep_out_append tz resetDaily resetAtMarketOpen ignoreVolume sk mo s c
    obtain ⟨ext, hext, hlen⟩ := ih (vwapStep tz resetDaily resetAtMarketOpen ignoreVolume sk mo s c)
    refine ⟨x :: ext, ?_, by simp [hlen]⟩
    rw [hext, hx, List.append_assoc]
    rfl

/-- With `resetDaily` and a nonzero-volume candle, the loop records the
candle's session key. -/
theorem vwapStep_key (tz : Nat) (ramo : Bool) (sk : String) (mo : Nat)
    (s : VwapState) (c : Candle) (hv : c.volume ≠ 0) :
    (vwapStep tz true ramo false sk mo s c).lastSessionKey
      = some (sessionKeyOf tz mo ramo c.time) := by
  rw [vwapStep, if_neg (by simp [hv])]
  cases hk : s.lastSessionKey with
  | none => simp [hk]
  | some k =>
    by_cases he : sessionKeyOf tz mo ramo c.time ≠ k
    · simp [hk, he]
    · simp [hk, he]

/-- After folding over a run of nonzero-volume candles that all share session
key `d`, `lastSessionKey` is `d`. -/
theorem vwap_fold_key (tz : Nat) (ramo : Bool) (sk : String) (mo : Nat) (d : ℤ) :
    ∀ l : List Candle,
    (∀ c ∈ l, c.volume ≠ 0 ∧ sessionKeyOf tz mo ramo c.time = d) →
    ∀ s : VwapState, l ≠ [] →
    (l.foldl (vwapStep tz true ramo false sk mo) s).lastSessionKey = some d := by
  intro l
  induction l with
  | nil => intro _ s h; cases h rfl
  | cons c rest ih =>
    intro hall s _
    rw [List.foldl_cons]
    by_cases hr : rest = []
    · subst hr
      rw [List.foldl_nil, vwapStep_key tz ramo sk mo s c (hall c (List.mem_cons_self c [])).1,
        (hall c (List.mem_cons_self c [])).2]
    · exact ih (fun x hx => hall x (List.mem_cons_of_mem c hx)) _ hr

/-- A nonzero-volume candle opening a new session resets the accumulators, so
its emitted VWAP is its own source price. -/
theorem vwapStep_new_session (tz : Nat) (sk : String) (mo : Nat)
    (s : VwapState) (c : Candle) (k : ℤ)
    (hv : 0 < c.volume) (hk : s.lastSessionKey = some k)
    (hne : sessionKeyOf tz mo false c.time ≠ k) :
    (vwapStep tz true false false sk mo s c).out
      = s.out ++ [⟨c.time, sourcePrice sk c⟩] := by
  have hv0 : c.volume ≠ 0 := ne_of_gt hv
  rw [vwapStep, if_neg (by simp [hv0])]
  simp only [hk]
  rw [if_pos hne]
  have hdiv : sourcePrice sk c * c.volume / c.volume = sourcePrice sk c :=
    mul_div_cancel_right₀ _ hv0
  simp [hv, hdiv]

/-- Accumulator characterisation of a nonzero-volume `calculateVWAP` step
under `resetDaily`: same session key — accumulate; changed key — reset, then
accumulate. -/
theorem vwapStep_accum_char (tz : Nat) (sk : String) (mo : Nat)
    (s : VwapState) (c : Candle) (k : ℤ)
    (hv : c.volume ≠ 0) (hk : s.lastSessionKey = some k) :
    (vwapStep tz true false false sk mo s c).cumTPV
      = (if (localDay tz c.time : ℤ) = k then s.cumTPV else 0) + sourcePrice sk c * c.volume
    ∧ (vwapStep tz true false false sk mo s c).cumVolume
      = (if (localDay tz c.time : ℤ) = k then s.cumVolume else 0) + c.volume := by
  have hsk : sessionKeyOf tz mo false c.time = ((localDay tz c.time : ℕ) : ℤ) := rfl
  rw [vwapStep, if_neg (by simp [hv])]
  simp only [hk, hsk]
  by_cases heq : ((localDay tz c.time : ℕ) : ℤ) = k
  · exact ⟨by simp [heq], by simp [heq]⟩
  · exact ⟨by simp [heq], by simp [heq]⟩

/-- C2: with `resetDaily`, the cumulative accumulators are reset exactly at a
session-key change between consecutive nonzero-volume bars (and only
accumulated otherwise); consequently, for an input of one full day followed by
a second day, the VWAP emitted for the first bar of day 2 equals that bar's
own source-selected price. -/
theorem vwap_session_reset (tz : Nat) (exchange source : String) (day1 : List Candle)
    (b : Candle) (rest : List Candle) (d : Nat) (s : VwapState) (c : Candle) (k : ℤ)
    (h1 : day1 ≠ [])
    (hday1 : ∀ x ∈ day1, localDay tz x.time = d ∧ x.volume ≠ 0)
    (hb : localDay tz b.time = d + 1)
    (hbv : 0 < b.volume)
    (hcv : c.volume ≠ 0)
    (hck : s.lastSessionKey = some k) :
    (calculateVWAP (some (day1 ++ b :: rest)) true exchange false source false tz)[day1.length]?
        = some ⟨b.time, sourcePrice (jsToLower source) b⟩
    ∧ (vwapStep tz true false false (jsToLower source) (getMarketOpenMinutes exchange) s c).cumTPV
        = (if (localDay tz c.time : ℤ) = k then s.cumTPV else 0)
          + sourcePrice (jsToLower source) c * c.volume
    ∧ (vwapStep tz true false false (jsToLower source) (getMarketOpenMinutes exchange) s c).cumVolume
        = (if (localDay tz c.time : ℤ) = k then s.cumVolume else 0) + c.volume := by
  refine ⟨?_,
    (vwapStep_accum_char tz (jsToLower source) (getMarketOpenMinutes exchange) s c k hcv hck).1,
    (vwapStep_accum_char tz (jsToLower source) (getMarketOpenMinutes exchange) s c k hcv hck).2⟩
  rw [calculateVWAP, if_neg (by simp)]
  show (((day1 ++ b :: rest).foldl
      (vwapStep tz true false false (jsToLower source) (getMarketOpenMinutes exchange))
      ⟨0, 0, none, []⟩).out)[day1.length]?
    = some ⟨b.time, sourcePrice (jsToLower source) b⟩
  rw [List.foldl_append, List.foldl_cons]
  have hkey1 : (day1.foldl
      (vwapStep tz true false false (jsToLower source) (getMarketOpenMinutes exchange))
      ⟨0, 0, none, []⟩).lastSessionKey = some (d : ℤ) := by
    refine vwap_fold_key tz false (jsToLower source) (getMarketOpenMinutes exchange) (d : ℤ)
      day1 (fun x hx => ⟨(hday1 x hx).2, ?_⟩) ⟨0, 0, none, []⟩ h1
    rw [show sessionKeyOf tz (getMarketOpenMinutes exchange) false x.time
        = ((localDay tz x.time : ℕ) : ℤ) from rfl, (hday1 x hx).1]
  obtain ⟨ext1, hout1, hlen1⟩ := vwap_fold_out tz true false false (jsToLower source)
    (getMarketOpenMinutes exchange) day1 ⟨0, 0, none, []⟩
  have hs1len : (day1.foldl
      (vwapStep tz true false false (jsToLower source) (getMarketOpenMinutes exchange))
      ⟨0, 0, none, []⟩).out.length = day1.length := by
    rw [hout1]
    simpa using hlen1
  have hne : sessionKeyOf tz (getMarketOpenMinutes exchange) false b.time ≠ (d : ℤ) := by
    rw [show sessionKeyOf tz (getMarketOpenMinutes exchange) false b.time
        = ((localDay tz b.time : ℕ) : ℤ) from rfl, hb]
    intro hcon
    omega
  have hstepb := vwapStep_new_session tz (jsToLower source) (getMarketOpenMinutes exchange)
    _ b (d : ℤ) hbv hkey1 hne
  obtain ⟨ext2, hout2, _⟩ := vwap_fold_out tz true false false (jsToLower source)
    (getMarketOpenMinutes exchange) rest
    (vwapStep tz true false false (jsToLower source) (getMarketOpenMinutes exchange)
      (day1.foldl (vwapStep tz true false false (jsToLower source) (getMarketOpenMinutes exchange))
        ⟨0, 0, none, []⟩) b)
  rw [hout2, hstepb, List.append_assoc]
  rw [List.getElem?_append_right (le_of_eq hs1len)]
  rw [hs1len, Nat.sub_self]
  simp

/-- Witness for C2: one bar on day 0 then one bar on day 1 (tz 0); the day-2
bar's VWAP is its own close, 40. -/
theorem vwap_session_reset_witness :
    (calculateVWAP (some [⟨1000, 30, 30, 30, 30, 1⟩, ⟨90000, 40, 40, 40, 40, 2⟩])
        true exNSE false srcClose false 0)[1]? = some ⟨90000, 40⟩ :=
  (vwap_session_reset 0 exNSE srcClose [⟨1000, 30, 30, 30, 30, 1⟩] ⟨90000, 40, 40, 40, 40, 2⟩ []
    0 ⟨0, 0, some 0, []⟩ ⟨90000, 40, 40, 40, 40, 2⟩ 0
    (by simp)
    (by intro x hx; rw [List.mem_singleton] at hx; subst hx; exact ⟨rfl, by norm_num⟩)
    rfl (by norm_num) (by norm_num) rfl).1
